import Mathlib

/-!
Verification of the live-diff terminal renderer `animate.py`.

The Python source is shallowly embedded: every function of the renderer
(`pad_vis`, `parse_int_or_none`, `build_colored_line`, `type_out`,
`reset_scroll_region`, and the per-cycle body of `main`) is translated to an
executable Lean definition.  Python strings are modelled as `List Char`,
Python dictionaries as functions into `Option`, and dynamically typed JSON
field values as an explicit inductive type.  Library calls (`wcwidth.wcswidth`,
`str.isdigit`, `int`, `colorama` color constants, `re` matching of the fixed
pattern `ANSI_RE`) are modelled from their documented behaviour, noted at each
definition.
-/

namespace Animate


/-! ## AnsiScanner: `ANSI_RE` (animate.py line 41)

The pattern matches ESC, `[`, zero or more parameter bytes in `0x30..0x3F`
(class `0` to `?`), zero or more intermediate bytes in `0x20..0x2F` (class
space to slash), one final byte in `0x40..0x7E` (class `@` to tilde).
The three byte classes are pairwise disjoint, so
greedy matching needs no backtracking and `re.match` at a position is the
straightforward longest scan modelled by `ansiMatch`. -/

/-- Parameter byte class (digit zero to question mark) of `ANSI_RE`. -/
def isParamByte (c : Char) : Bool := '0' ≤ c && c ≤ '?'

/-- Intermediate byte class (space to slash) of `ANSI_RE`. -/
def isInterByte (c : Char) : Bool := ' ' ≤ c && c ≤ '/'

/-- Final byte class (at sign to tilde) of `ANSI_RE`. -/
def isFinalByte (c : Char) : Bool := '@' ≤ c && c ≤ '~'

/-- Declarative reading of `ANSI_RE`: a complete escape sequence is ESC, `[`,
parameter bytes, intermediate bytes, and one final byte. -/
def IsAnsiSeq (s : List Char) : Prop :=
  ∃ ps ins f, s = '\x1b' :: '[' :: (ps ++ ins ++ [f]) ∧
    (∀ c ∈ ps, isParamByte c) ∧ (∀ c ∈ ins, isInterByte c) ∧ isFinalByte f

/-- Model of `ANSI_RE.match(line, i)` on the tail of the line starting at
position `i`: the matched sequence and the remainder, or `none`. -/
def ansiMatch : List Char → Option (List Char × List Char)
  | '\x1b' :: '[' :: rest =>
    let ps := rest.takeWhile isParamByte
    let r1 := rest.dropWhile isParamByte
    let ins := r1.takeWhile isInterByte
    let r2 := r1.dropWhile isInterByte
    match r2 with
    | f :: r3 =>
      if isFinalByte f then some ('\x1b' :: '[' :: (ps ++ ins ++ [f]), r3) else none
    | [] => none
  | _ => none

/-! ## DisplayWidth: `pad_vis` (animate.py lines 44-57)

`wcwidth.wcswidth` of a single character is the character's terminal cell
width: 0 for combining characters, 1 for ordinary ones, 2 for wide (CJK)
ones, and -1 for nonprintable characters.  `wcswidth` of a whole string is
the sum of the per-character widths, or -1 if any character is nonprintable.
The table itself is irrelevant to the control flow of `pad_vis`, so the
embedding is parameterised by the per-character width function `wcw`. -/

/-- Model of `wcwidth.wcswidth` applied to a whole string: the sum of the
per-character widths, or -1 when some character has negative width. -/
def wcswidthList (wcw : Char → Int) (s : List Char) : Int :=
  if s.all (fun c => decide (0 ≤ wcw c)) then (s.map wcw).sum else -1

/-- The truncation loop of `pad_vis`: walk the characters keeping a running
clamped-width total `cur`, and stop (Python `break`) at the first character
that would push the total past `width`. -/
def padVisTrunc (wcw : Char → Int) (width : Nat) : List Char → Nat → List Char
  | [], _ => []
  | ch :: rest, cur =>
    let w := (max (wcw ch) 0).toNat
    if cur + w > width then []
    else ch :: padVisTrunc wcw width rest (cur + w)

/-- Embedding of `pad_vis(s, width)`: truncate by cumulative clamped width,
then append `width - wcswidth(out_s)` spaces (Python `" " * pad` yields the
empty string when `pad` is negative, modelled by `Int.toNat`). -/
def pad_vis (wcw : Char → Int) (s : List Char) (width : Nat) : List Char :=
  let out_s := padVisTrunc wcw width s 0
  let pad := (width : Int) - wcswidthList wcw out_s
  out_s ++ List.replicate pad.toNat ' '

/-- Concrete width table used by witnesses: the CJK character 好 is
double-width, everything else single-width. -/
def wcwSample : Char → Int := fun c => if c = '好' then 2 else 1

/-! ## Raw JSON field values and `parse_int_or_none` (animate.py lines 66-71)

A record field fetched with `dict.get` is either a JSON integer, a JSON
string, or absent/null (Python `None`); `RawVal` models these three cases.
The raw `ChooseStudent` value is compared for identity across cycles and fed
to `parse_int_or_none`. -/

/-- Dynamically typed raw field value: Python `int`, `str`, or `None`
(covering both a JSON `null` and a missing field, which `dict.get` also
returns as `None`). -/
inductive RawVal where
  | vint (n : Int)
  | vstr (s : String)
  | vnone
deriving DecidableEq, Repr

/-- Model of Python `str.isdigit` on one character.  Python accepts every
Unicode decimal digit (and a few digit-valued characters), not only ASCII
`0`-`9`; the model covers the fragment exercised here: ASCII digits and the
Arabic-Indic digits U+0660..U+0669 (all of which `int()` also parses). -/
def pyIsDigit (c : Char) : Bool :=
  ('0' ≤ c && c ≤ '9') || ('٠' ≤ c && c ≤ '٩')

/-- Model of Python `str.isdigit` on a whole string: false for the empty
string, otherwise true when every character is a digit. -/
def pyIsDigitStr (s : String) : Bool :=
  !s.data.isEmpty && s.data.all pyIsDigit

/-- Decimal value of one digit character (ASCII or Arabic-Indic). -/
def pyDigitVal (c : Char) : Nat :=
  if '0' ≤ c && c ≤ '9' then c.toNat - '0'.toNat else c.toNat - 0x660

/-- Model of Python `int(s)` on a string of decimal digit characters. -/
def pyIntOfDigits (s : String) : Int :=
  s.data.foldl (fun a c => 10 * a + (pyDigitVal c : Int)) 0

/-- Embedding of `parse_int_or_none(val)`: an `int` is returned unchanged, a
string passing `isdigit` is parsed with `int()`, everything else yields
`None`. -/
def parse_int_or_none : RawVal → Option Int
  | .vint n => some n
  | .vstr s => if pyIsDigitStr s then some (pyIntOfDigits s) else none
  | .vnone => none

/-! ## RowFormatter: `build_colored_line` (animate.py lines 74-114)

The `colorama` constants are the standard ANSI SGR sequences documented by
the library: `Fore.RED = "\x1b[31m"`, `Fore.GREEN = "\x1b[32m"`,
`Fore.YELLOW = "\x1b[33m"`, `Fore.MAGENTA = "\x1b[35m"`,
`Fore.CYAN = "\x1b[36m"`, `Style.RESET_ALL = "\x1b[0m"`. -/

def FORE_RED : String := "\x1b[31m"

def FORE_GREEN : String := "\x1b[32m"

def FORE_YELLOW : String := "\x1b[33m"

def FORE_MAGENTA : String := "\x1b[35m"

def FORE_CYAN : String := "\x1b[36m"

def RESET_ALL : String := "\x1b[0m"

def COL1_WIDTH : Nat := 54

def COL2_WIDTH : Nat := 16

/-- The `choose_color` selection of `build_colored_line`: yellow unless both
the current and the previous count parsed, in which case red on increase and
green on decrease. -/
def chooseColor (choose_val prev_choose_val : Option Int) : String :=
  match prev_choose_val, choose_val with
  | some p, some c =>
    if c > p then FORE_RED else if c < p then FORE_GREEN else FORE_YELLOW
  | _, _ => FORE_YELLOW

/-- The numeral text of column 2: `str(choose_val)`, or the dash placeholder
when the count is `None`. -/
def chooseStr (choose_val : Option Int) : String :=
  match choose_val with
  | none => "-"
  | some v => toString v

/-- The sign marker of column 2: `"+"` exactly when `choose_color` came out
red, `"-"` otherwise. -/
def signStr (choose_val prev_choose_val : Option Int) : String :=
  if chooseColor choose_val prev_choose_val = FORE_RED then "+" else "-"

/-- Whether the character list `ned` occurs at the head of `hay`
(helper for the Python `str.find` model). -/
def beginsWith : List Char → List Char → Bool
  | [], _ => true
  | _ :: _, [] => false
  | n :: ns, h :: hs => n = h && beginsWith ns hs

/-- Model of Python `part2_pad.find(choose_str)`: index of the first
occurrence of the needle, `none` standing for Python's `-1`. -/
def findSubIdx : List Char → List Char → Option Nat
  | hay, ned =>
    if beginsWith ned hay then some 0
    else
      match hay with
      | [] => none
      | _ :: t => (findSubIdx t ned).map (· + 1)

/-- Embedding of `build_colored_line`, parameterised by the `wcwidth` table
used by `pad_vis`. -/
def build_colored_line (wcw : Char → Int) (course_no course_name : String)
    (choose_val : Option Int) (restrict2 classroom : String)
    (prev_choose_val : Option Int) : String :=
  let choose_color := chooseColor choose_val prev_choose_val
  let part1_vis := course_no ++ " | " ++ course_name
  let choose_str := chooseStr choose_val
  let part2_vis := signStr choose_val prev_choose_val ++ " " ++ choose_str ++ " / " ++ restrict2
  let part3_vis := "| " ++ classroom
  let part1_pad : String := ⟨pad_vis wcw part1_vis.data COL1_WIDTH⟩
  let part2_pad : String := ⟨pad_vis wcw part2_vis.data COL2_WIDTH⟩
  let part1_col := FORE_CYAN ++ part1_pad ++ RESET_ALL
  let part2_col :=
    match findSubIdx part2_pad.data choose_str.data with
    | some idx =>
      let pre : String := ⟨part2_pad.data.take idx⟩
      let suf : String := ⟨part2_pad.data.drop (idx + choose_str.data.length)⟩
      FORE_YELLOW ++ pre ++ choose_color ++ choose_str ++ FORE_YELLOW ++ suf ++ RESET_ALL
    | none => FORE_YELLOW ++ part2_pad ++ RESET_ALL
  let part3_col := FORE_GREEN ++ part3_vis ++ RESET_ALL
  part1_col ++ part2_col ++ part3_col

/-! ## SnapshotDiffer: the per-record body of `main` (animate.py lines 159-189)

A fetched record is a JSON object; the fields the loop reads are modelled
directly.  String-valued fields may be absent (`none`), and Python's
`c.get(k) or d` falls through to the default both for `None` and for the
falsy empty string, modelled by `orDefault`. -/

/-- One fetched course record, with exactly the fields `main` reads. -/
structure Record where
  CourseNo : Option String
  CourseName : Option String
  ChooseStudent : RawVal
  Restrict2 : Option String
  ClassRoomNo : Option String
deriving DecidableEq, Repr

/-- Model of Python `v or d` for an optional string `v`: the default is used
when the value is `None` or the (falsy) empty string. -/
def orDefault (v : Option String) (d : String) : String :=
  match v with
  | some s => if s = "" then d else s
  | none => d

/-- The key a record is processed and retained under:
`c.get("CourseNo") or "-"`. -/
def keyOf (c : Record) : String := orDefault c.CourseNo "-"

/-- The key records are sorted by: `c.get("CourseNo") or ""`. -/
def sortKey (c : Record) : String := orDefault c.CourseNo ""

/-- One retained entry of `prev_state`: the dictionary written at
animate.py lines 184-189. -/
structure PrevEntry where
  name : String
  choose_raw : RawVal
  restrict2 : String
  room : String
deriving DecidableEq, Repr

/-- The fields of `c` as they are written into `prev_state[course_no]`. -/
def entryOf (c : Record) : PrevEntry :=
  { name := orDefault c.CourseName "-"
    choose_raw := c.ChooseStudent
    restrict2 := orDefault c.Restrict2 "-"
    room := orDefault c.ClassRoomNo "-" }

/-- The retained state `prev_state`: a mapping from key to last-seen entry. -/
abbrev RState := String → Option PrevEntry

/-- Pointwise update of the retained state (`prev_state[course_no] = {...}`). -/
def setEntry (st : RState) (k : String) (e : PrevEntry) : RState :=
  fun k' => if k' = k then some e else st k'

/-- The empty retained state at process start. -/
def emptyState : RState := fun _ => none

/-- The body of `for c in data_sorted` in `main`: read the fields with their
defaults, look the key up in retained state, append a colored line when this
is not the first run and the raw count changed, then write the entry back
unconditionally. -/
def processRecord (wcw : Char → Int) (first_run : Bool)
    (acc : List String × RState) (c : Record) : List String × RState :=
  let course_no := orDefault c.CourseNo "-"
  let name := orDefault c.CourseName "-"
  let choose_raw := c.ChooseStudent
  let choose_val := parse_int_or_none choose_raw
  let restrict2 := orDefault c.Restrict2 "-"
  let room := orDefault c.ClassRoomNo "-"
  let prev := acc.2 course_no
  let to_print :=
    match prev with
    | some p =>
      if first_run = false ∧ choose_raw ≠ p.choose_raw then
        acc.1 ++ [build_colored_line wcw course_no name choose_val restrict2 room
          (parse_int_or_none p.choose_raw)]
      else acc.1
    | none => acc.1
  (to_print, setEntry acc.2 course_no ⟨name, choose_raw, restrict2, room⟩)

/-- One full diff pass over a snapshot: the `for` loop of `main` starting
from an empty `to_print` list and the current retained state. -/
def processSnapshot (wcw : Char → Int) (first_run : Bool) (st : RState)
    (data : List Record) : List String × RState :=
  data.foldl (processRecord wcw first_run) ([], st)

/-- Key-annotated view of the lines a diff pass emits: each emitted line is
paired with the sort key of the record that produced it, with the retained
state threaded exactly as in `processRecord`. -/
def deltaKeyLines (wcw : Char → Int) (first_run : Bool) :
    RState → List Record → List (String × String)
  | _, [] => []
  | st, c :: cs =>
    (match st (keyOf c) with
     | some p =>
       if first_run = false ∧ c.ChooseStudent ≠ p.choose_raw then
         [(sortKey c,
           build_colored_line wcw (keyOf c) (orDefault c.CourseName "-")
             (parse_int_or_none c.ChooseStudent) (orDefault c.Restrict2 "-")
             (orDefault c.ClassRoomNo "-") (parse_int_or_none p.choose_raw))]
       else []
     | none => []) ++
      deltaKeyLines wcw first_run (setEntry st (keyOf c) (entryOf c)) cs

/-! ## TerminalAnimator: `type_out` (animate.py lines 117-129)

`type_out` walks the line with a cursor: a complete escape sequence at the
cursor is printed whole with no sleep, any other character is printed alone
followed by `time.sleep(TYPE_DELAY)`, and a final newline is printed when
the line does not end in one.  The observable behaviour is the sequence of
emissions, modelled by `Emit`. -/

/-- One emission of `type_out`: an atomic escape sequence (no delay), one
printable character (followed by the typing delay), or the final newline. -/
inductive Emit where
  | esc (s : List Char)
  | chr (c : Char)
  | nl
deriving DecidableEq, Repr

/-- The characters an emission writes to the terminal. -/
def emitChars : Emit → List Char
  | .esc s => s
  | .chr c => [c]
  | .nl => ['\n']

/-- How many times `time.sleep(TYPE_DELAY)` runs for an emission: once per
printable character, never for an escape sequence or the final newline. -/
def emitDelayCount : Emit → Nat
  | .esc _ => 0
  | .chr _ => 1
  | .nl => 0

/-- Embedding of the `while i < len(line)` loop of `type_out`: at each cursor
position emit either the complete escape sequence matching there (one atomic
write, no sleep) or the single character there (one write followed by one
sleep). -/
def typeOutAux (l : List Char) : List Emit :=
  match h : ansiMatch l with
  | some (m, r) => .esc m :: typeOutAux r
  | none =>
    match l with
    | [] => []
    | c :: rest => .chr c :: typeOutAux rest
termination_by l.length
decreasing_by
  · have key : ∀ (L M R : List Char), ansiMatch L = some (M, R) → R.length < L.length := by
      intro L M R hLR
      rcases L with _ | ⟨c, _ | ⟨d, rest⟩⟩
      · simp [ansiMatch] at hLR
      · rcases eq_or_ne c '\x1b' with rfl | hne
        · simp [ansiMatch] at hLR
        · simp [ansiMatch, hne] at hLR
      · rcases eq_or_ne c '\x1b' with rfl | hne
        · rcases eq_or_ne d '[' with rfl | hnd
          · simp only [ansiMatch] at hLR
            split at hLR
            · rename_i f r3 hr2
              split at hLR
              · obtain ⟨-, hr⟩ : _ ∧ r3 = R := by simpa using hLR
                have h1 : (rest.dropWhile isParamByte).length ≤ rest.length :=
                  (List.dropWhile_sublist _).length_le
                have h2 : ((rest.dropWhile isParamByte).dropWhile isInterByte).length ≤
                    (rest.dropWhile isParamByte).length :=
                  (List.dropWhile_sublist _).length_le
                have h3 := congrArg List.length hr2
                simp only [List.length_cons] at h3
                subst hr
                simp only [List.length_cons]
                omega
              · simp at hLR
            · simp at hLR
          · simp [ansiMatch, hnd] at hLR
        · simp [ansiMatch, hne] at hLR
    exact key l m r h
  · simp

/-- Embedding of `type_out(line)`: the emissions of the scanning loop, then a
final newline when the line does not already end in one. -/
def type_out (line : List Char) : List Emit :=
  typeOutAux line ++ (if line.getLast? = some '\n' then [] else [Emit.nl])

/-! ## Terminal session: `enable_sticky_title` and `reset_scroll_region`
(animate.py lines 131-146)

Both procedures only write fixed control sequences to stdout.  Their effect
is modelled on an abstract terminal state holding the scroll region (`none`
standing for the default full-screen region) and the cursor position; each
emitted write is one `TermOp`, and `opBytes` records the exact byte sequence
the Python code writes for it. -/

/-- Abstract terminal-control state: the active scroll region (`none` is the
full screen) and the cursor position. -/
structure TermState where
  scrollRegion : Option (Nat × Nat)
  cursor : Nat × Nat
deriving DecidableEq, Repr

/-- One terminal-control write. -/
inductive TermOp where
  | clearScreen
  | setRegion (top bot : Nat)
  | resetRegion
  | moveCursor (row col : Nat)
  | text (s : String)
deriving DecidableEq, Repr

/-- The exact bytes the source writes for each control operation. -/
def opBytes : TermOp → String
  | .clearScreen => "\x1b[2J"
  | .setRegion a b => "\x1b[" ++ toString a ++ ";" ++ toString b ++ "r"
  | .resetRegion => "\x1b[r"
  | .moveCursor r c => "\x1b[" ++ toString r ++ ";" ++ toString c ++ "H"
  | .text s => s

/-- Semantics of one control write on the terminal state. -/
def applyOp (t : TermState) : TermOp → TermState
  | .clearScreen => t
  | .setRegion a b => { t with scrollRegion := some (a, b) }
  | .resetRegion => { t with scrollRegion := none }
  | .moveCursor r c => { t with cursor := (r, c) }
  | .text _ => t

/-- Semantics of a sequence of control writes. -/
def applyOps (t : TermState) (ops : List TermOp) : TermState := ops.foldl applyOp t

/-- Embedding of `reset_scroll_region()`: it writes the single full-screen
scroll-region reset sequence and flushes. -/
def reset_scroll_region : List TermOp := [.resetRegion]

/-- Embedding of `enable_sticky_title(title)` for a terminal of `rows` rows:
clear, set the scroll region to rows 2..`rows`, print the title on row 1 in
magenta, move into the scroll region. -/
def enable_sticky_title (rows : Nat) (title : String) : List TermOp :=
  [.clearScreen, .setRegion 2 rows, .moveCursor 1 1,
    .text (FORE_MAGENTA ++ title ++ RESET_ALL ++ "\n"), .moveCursor 2 1]

/-- Terminal state at process start: default scroll region, cursor at home. -/
def initialTerm : TermState := { scrollRegion := none, cursor := (1, 1) }

/-! ## PollLoop: the `while True` body of `main` (animate.py lines 149-203)

One loop iteration either gets a snapshot, raises a non-interrupt exception
(any failure of the fetch or of the cycle's processing, caught by the broad
`except Exception`), or is interrupted.  `runCycle` gives the observable
outcome of the iteration: whether the loop continues, whether it slept for
`INTERVAL_SECONDS`, which lines it printed, and the new `first_run` flag and
retained state. -/

/-- What the fetch (and the cycle around it) did this iteration. -/
inductive FetchOutcome where
  | ok (data : List Record)
  | exn
  | interrupt

/-- Whether the loop continues after the iteration. -/
inductive LoopAction where
  | cont
  | stop
deriving DecidableEq, Repr

/-- Observable outcome of one iteration of the polling loop. -/
structure CycleResult where
  action : LoopAction
  slept : Bool
  printed : List String
  first_run : Bool
  state : RState

/-- The comparator of `sorted(data, key=lambda c: c.get("CourseNo") or "")`. -/
def recLe (a b : Record) : Bool := decide (sortKey a ≤ sortKey b)

/-- Python's `sorted` is a stable merge sort by the key function. -/
def sortRecords (data : List Record) : List Record := data.mergeSort recLe

/-- Embedding of one iteration of the `while True` loop of `main`:
`KeyboardInterrupt` breaks out of the loop without sleeping; any other
exception skips the cycle and sleeps; a fetched snapshot is sorted, diffed
and (except on the baseline cycle) printed, then the loop sleeps. -/
def runCycle (wcw : Char → Int) (first_run : Bool) (st : RState)
    (f : FetchOutcome) : CycleResult :=
  match f with
  | .interrupt => ⟨.stop, false, [], first_run, st⟩
  | .exn => ⟨.cont, true, [], first_run, st⟩
  | .ok data =>
    let data_sorted := sortRecords data
    let res := processSnapshot wcw first_run st data_sorted
    ⟨.cont, true, if first_run then [] else res.1, false, res.2⟩

/-- What the per-record step appends to `to_print`, as an explicit list. -/
def deltaOf (wcw : Char → Int) (first_run : Bool) (st : RState) (c : Record) :
    List String :=
  match st (keyOf c) with
  | some p =>
    if first_run = false ∧ c.ChooseStudent ≠ p.choose_raw then
      [build_colored_line wcw (keyOf c) (orDefault c.CourseName "-")
        (parse_int_or_none c.ChooseStudent) (orDefault c.Restrict2 "-")
        (orDefault c.ClassRoomNo "-") (parse_int_or_none p.choose_raw)]
    else []
  | none => []

/-- Concrete record with no `CourseNo` field, used for C3. -/
def recNoKey : Record :=
  { CourseNo := none, CourseName := some "X", ChooseStudent := .vstr "5",
    Restrict2 := some "50", ClassRoomNo := some "R" }

lemma padVisTrunc_append_eq (wcw : Char → Int) (width : Nat) :
    ∀ (s : List Char) (cur : Nat), ∃ u, padVisTrunc wcw width s cur ++ u = s := by
  intro s
  induction s with
  | nil => intro cur; exact ⟨[], rfl⟩
  | cons ch rest ih =>
    intro cur
    simp only [padVisTrunc]
    split
    · exact ⟨ch :: rest, rfl⟩
    · obtain ⟨t, ht⟩ := ih (cur + (max (wcw ch) 0).toNat)
      exact ⟨t, by rw [List.cons_append, ht]⟩

lemma padVisTrunc_width_le (wcw : Char → Int) (width : Nat) :
    ∀ (s : List Char), (∀ c ∈ s, 0 ≤ wcw c) → ∀ (cur : Nat), cur ≤ width →
      ((padVisTrunc wcw width s cur).map wcw).sum + (cur : Int) ≤ width := by
  intro s
  induction s with
  | nil =>
    intro _ cur h
    simp only [padVisTrunc, List.map_nil, List.sum_nil, zero_add]
    exact_mod_cast h
  | cons ch rest ih =>
    intro hnn cur hcur
    simp only [padVisTrunc]
    split
    · simpa using hcur
    · rename_i hle
      push_neg at hle
      have hw : ((max (wcw ch) 0).toNat : Int) = wcw ch := by
        have := hnn ch (by simp)
        omega
      have h2 : cur + (max (wcw ch) 0).toNat ≤ width := hle
      have := ih (fun c hc => hnn c (List.mem_cons_of_mem ch hc))
        (cur + (max (wcw ch) 0).toNat) h2
      simp only [List.map_cons, List.sum_cons]
      push_cast at this ⊢
      omega

lemma wcswidthList_eq_sum (wcw : Char → Int) (t : List Char)
    (h : ∀ c ∈ t, 0 ≤ wcw c) :
    wcswidthList wcw t = (t.map wcw).sum := by
  simp only [wcswidthList, List.all_eq_true, decide_eq_true_eq]
  rw [if_pos h]

lemma wcswidthList_append_spaces (wcw : Char → Int) (t : List Char)
    (hT : ∀ c ∈ t, 0 ≤ wcw c) (hsp : wcw ' ' = 1) (n : Nat) :
    wcswidthList wcw (t ++ List.replicate n ' ') = (t.map wcw).sum + n := by
  have hall : ∀ c ∈ t ++ List.replicate n ' ', 0 ≤ wcw c := by
    intro c hc
    rcases List.mem_append.1 hc with h | h
    · exact hT c h
    · rw [List.eq_of_mem_replicate h, hsp]; norm_num
  rw [wcswidthList_eq_sum wcw _ hall]
  simp [List.map_replicate, hsp, List.sum_replicate]

/-- C2.  For every string `s` made of zero-, single-, and double-width
characters (per-character width in {0,1,2}) and every target width `W`,
`pad_vis s W` has visual width exactly `W`; moreover the result is a prefix
of `s` of cumulative visual width at most `W` followed by ASCII spaces. -/
theorem pad_vis_visual_width_exact (wcw : Char → Int) (s : List Char) (W : Nat)
    (hs : ∀ c ∈ s, wcw c = 0 ∨ wcw c = 1 ∨ wcw c = 2) (hsp : wcw ' ' = 1) :
    wcswidthList wcw (pad_vis wcw s W) = W ∧
      ∃ t n u, t ++ u = s ∧ pad_vis wcw s W = t ++ List.replicate n ' ' ∧
        wcswidthList wcw t ≤ W := by
  set t := padVisTrunc wcw W s 0 with ht
  obtain ⟨u, hu⟩ := padVisTrunc_append_eq wcw W s 0
  have hsub : ∀ c ∈ t, 0 ≤ wcw c := by
    intro c hc
    have hcs : c ∈ s := hu ▸ List.mem_append_left u hc
    rcases hs c hcs with h | h | h <;> omega
  have hsum : ((t.map wcw).sum : Int) ≤ W := by
    have := padVisTrunc_width_le wcw W s
      (fun c hc => by rcases hs c hc with h | h | h <;> omega) 0 (Nat.zero_le W)
    simpa using this
  have htw : wcswidthList wcw t = (t.map wcw).sum := wcswidthList_eq_sum wcw t hsub
  have hpv : pad_vis wcw s W = t ++ List.replicate ((W - (t.map wcw).sum).toNat) ' ' := by
    simp only [pad_vis, ← ht, htw]
  constructor
  · rw [hpv, wcswidthList_append_spaces wcw t hsub hsp]
    have hnn : 0 ≤ (t.map wcw).sum := by
      apply List.sum_nonneg
      intro x hx
      obtain ⟨c, hc, rfl⟩ := List.mem_map.1 hx
      exact hsub c hc
    omega
  · exact ⟨t, _, u, hu, hpv, htw ▸ hsum⟩

lemma ansiMatch_some (l m r : List Char) (h : ansiMatch l = some (m, r)) :
    m ++ r = l ∧ r.length + 3 ≤ l.length ∧ IsAnsiSeq m := by
  match l with
  | [] => simp [ansiMatch] at h
  | [c] =>
    rcases eq_or_ne c '\x1b' with rfl | hne
    · simp [ansiMatch] at h
    · simp [ansiMatch, hne] at h
  | c :: d :: rest =>
    rcases eq_or_ne c '\x1b' with rfl | hne
    · rcases eq_or_ne d '[' with rfl | hnd
      · simp only [ansiMatch] at h
        split at h
        · rename_i f r3 hr2
          split at h
          · rename_i hf
            obtain ⟨hm, hr⟩ : '\x1b' :: '[' ::
                (rest.takeWhile isParamByte ++
                  (rest.dropWhile isParamByte).takeWhile isInterByte ++ [f]) = m ∧ r3 = r := by
              simpa using h
            subst hr
            have hsplit : rest.takeWhile isParamByte ++
                ((rest.dropWhile isParamByte).takeWhile isInterByte ++ (f :: r3)) = rest := by
              rw [← hr2, List.takeWhile_append_dropWhile, List.takeWhile_append_dropWhile]
            refine ⟨?_, ?_, ?_⟩
            · rw [← hm]
              simp only [List.cons_append, List.cons.injEq, true_and]
              simpa [List.append_assoc] using hsplit
            · have hlen := congrArg List.length hsplit
              simp only [List.length_append, List.length_cons] at hlen
              simp only [List.length_cons]
              omega
            · exact ⟨rest.takeWhile isParamByte,
                (rest.dropWhile isParamByte).takeWhile isInterByte, f,
                by rw [← hm],
                fun c hc => List.mem_takeWhile_imp hc,
                fun c hc => List.mem_takeWhile_imp hc, hf⟩
          · simp at h
        · simp at h
      · simp [ansiMatch, hnd] at h
    · simp [ansiMatch, hne] at h

lemma processRecord_snd (wcw : Char → Int) (b : Bool)
    (acc : List String × RState) (c : Record) :
    (processRecord wcw b acc c).2 = setEntry acc.2 (keyOf c) (entryOf c) := rfl

lemma processRecord_fst (wcw : Char → Int) (b : Bool)
    (acc : List String × RState) (c : Record) :
    (processRecord wcw b acc c).1 = acc.1 ++ deltaOf wcw b acc.2 c := by
  simp only [processRecord, deltaOf, keyOf]
  cases h : acc.2 (orDefault c.CourseNo "-") with
  | none => simp
  | some p => split <;> first | (split <;> simp_all) | simp_all

lemma foldl_fst_baseline (wcw : Char → Int) :
    ∀ (data : List Record) (acc : List String × RState),
      (data.foldl (processRecord wcw true) acc).1 = acc.1 := by
  intro data
  induction data with
  | nil => intro acc; rfl
  | cons c cs ih =>
    intro acc
    rw [List.foldl_cons, ih, processRecord_fst]
    simp only [deltaOf]
    cases acc.2 (keyOf c) <;> simp

lemma foldl_fst_deltas (wcw : Char → Int) (b : Bool) :
    ∀ (data : List Record) (acc : List String × RState),
      (data.foldl (processRecord wcw b) acc).1 =
        acc.1 ++ (deltaKeyLines wcw b acc.2 data).map Prod.snd := by
  intro data
  induction data with
  | nil => intro acc; simp [deltaKeyLines]
  | cons c cs ih =>
    intro acc
    rw [List.foldl_cons, ih, processRecord_fst, processRecord_snd]
    simp only [deltaKeyLines, deltaOf]
    cases h : acc.2 (keyOf c) with
    | none => simp
    | some p =>
      by_cases hc : b = false ∧ c.ChooseStudent ≠ p.choose_raw
      · simp [hc]
      · simp [hc]

lemma foldl_snd_lookup (wcw : Char → Int) (b : Bool) (k : String) :
    ∀ (data : List Record) (acc : List String × RState),
      (data.foldl (processRecord wcw b) acc).2 k =
        match data.reverse.find? (fun c => keyOf c == k) with
        | some c => some (entryOf c)
        | none => acc.2 k := by
  intro data
  induction data with
  | nil => intro acc; simp
  | cons c cs ih =>
    intro acc
    rw [List.foldl_cons, ih]
    rw [List.reverse_cons, List.find?_append]
    cases h : cs.reverse.find? (fun c => keyOf c == k) with
    | some c' => simp
    | none =>
      rw [processRecord_snd]
      by_cases hk : keyOf c = k
      · simp [setEntry, hk]
      · have hk' : ¬ k = keyOf c := fun hkk => hk hkk.symm
        simp [setEntry, hk, hk']

lemma deltaKeyLines_keys_sublist (wcw : Char → Int) (b : Bool) :
    ∀ (data : List Record) (st : RState),
      ((deltaKeyLines wcw b st data).map Prod.fst).Sublist (data.map sortKey) := by
  intro data
  induction data with
  | nil => intro st; simp [deltaKeyLines]
  | cons c cs ih =>
    intro st
    cases h : st (keyOf c) with
    | none =>
      simpa [deltaKeyLines, h] using (ih (setEntry st (keyOf c) (entryOf c))).cons (sortKey c)
    | some p =>
      by_cases hc : b = false ∧ c.ChooseStudent ≠ p.choose_raw
      · simpa [deltaKeyLines, h, hc] using
          (ih (setEntry st (keyOf c) (entryOf c))).cons₂ (sortKey c)
      · simpa [deltaKeyLines, h, hc] using
          (ih (setEntry st (keyOf c) (entryOf c))).cons (sortKey c)

/-- C1.  In a diff pass, a rendered line is produced for a record exactly
when the cycle is not the baseline one, a prior entry for the record's key
exists in the retained state at the moment the record is processed, and the
raw (untransformed) count differs from the retained raw count; on the
baseline cycle the pass emits no lines at all. -/
theorem delta_emitted_iff_changed (wcw : Char → Int) (first_run : Bool)
    (acc : List String × RState) (c : Record) :
    ((processRecord wcw first_run acc c).1 = acc.1 ++ deltaOf wcw first_run acc.2 c) ∧
    ((processRecord wcw first_run acc c).1 ≠ acc.1 ↔
      first_run = false ∧
        ∃ p, acc.2 (keyOf c) = some p ∧ c.ChooseStudent ≠ p.choose_raw) ∧
    (∀ (st : RState) (data : List Record), (processSnapshot wcw true st data).1 = []) := by
  refine ⟨processRecord_fst wcw first_run acc c, ?_, ?_⟩
  · rw [processRecord_fst]
    simp only [deltaOf]
    cases h : acc.2 (keyOf c) with
    | none => simp
    | some p =>
      by_cases hc : first_run = false ∧ c.ChooseStudent ≠ p.choose_raw
      · apply iff_of_true
        · simp [hc]
        · exact ⟨hc.1, p, rfl, hc.2⟩
      · apply iff_of_false
        · simp [hc]
        · rintro ⟨hb, q, hq, hne⟩
          obtain rfl : p = q := by simpa using hq
          exact hc ⟨hb, hne⟩
  · intro st data
    exact foldl_fst_baseline wcw data ([], st)

/-- C5.  After a diff pass, the retained state maps every key occurring in
the snapshot to the fields of the last record of the snapshot bearing that
key (written unconditionally), and every other key keeps its previous value;
in particular no entry is ever deleted. -/
theorem retained_state_after_cycle (wcw : Char → Int) (b : Bool) (st : RState)
    (data : List Record) (k : String) :
    ((processSnapshot wcw b st data).2 k =
      match data.reverse.find? (fun c => keyOf c == k) with
      | some c => some (entryOf c)
      | none => st k) ∧
    ((st k).isSome → ((processSnapshot wcw b st data).2 k).isSome) := by
  have h := foldl_snd_lookup wcw b k data ([], st)
  refine ⟨h, ?_⟩
  intro hs
  rw [show (processSnapshot wcw b st data).2 k = _ from h]
  cases data.reverse.find? (fun c => keyOf c == k) with
  | some c => simp
  | none => simpa using hs

/-- C7.  Rendered lines of a diff pass over the sorted snapshot appear in
snapshot order, and the sort keys of the records that produced them are in
ascending (lexicographic) order. -/
theorem deltas_in_sorted_key_order (wcw : Char → Int) (st : RState)
    (data : List Record) :
    ((processSnapshot wcw false st (sortRecords data)).1 =
      (deltaKeyLines wcw false st (sortRecords data)).map Prod.snd) ∧
    ((deltaKeyLines wcw false st (sortRecords data)).map Prod.fst).Pairwise (· ≤ ·) := by
  constructor
  · have h := foldl_fst_deltas wcw false (sortRecords data) ([], st)
    simpa [processSnapshot] using h
  · have hsorted : (sortRecords data).Pairwise (fun a b => recLe a b = true) := by
      apply List.sorted_mergeSort
      · intro a b c h1 h2
        simp only [recLe, decide_eq_true_eq] at h1 h2 ⊢
        exact le_trans h1 h2
      · intro a b
        simp only [recLe]
        rcases le_total (sortKey a) (sortKey b) with h | h <;> simp [h]
    have hmap : ((sortRecords data).map sortKey).Pairwise (· ≤ ·) := by
      rw [List.pairwise_map]
      exact hsorted.imp (fun h => by simpa [recLe] using h)
    exact List.Pairwise.sublist
      (deltaKeyLines_keys_sublist wcw false (sortRecords data) st) hmap

/-- C3 counterexample.  A record missing its key is not skipped: on the
baseline cycle it is written into retained state under the placeholder key
`"-"`, and on a later cycle it can even produce a delta (here: prior raw
count `"4"`, new raw count `"5"`). -/
theorem missing_key_not_skipped_cex :
    ((processSnapshot wcwSample true emptyState [recNoKey]).2 "-" =
      some { name := "X", choose_raw := .vstr "5", restrict2 := "50", room := "R" }) ∧
    (processSnapshot wcwSample false
        (setEntry emptyState "-"
          { name := "X", choose_raw := .vstr "4", restrict2 := "50", room := "R" })
        [recNoKey]).1 ≠ [] := by
  constructor
  · rfl
  · decide

/-- C3 amended.  A record with a missing key is processed exactly as the same
record would be with the placeholder key `"-"`: it is not dropped, it writes
retained state under `"-"`, and it can emit a delta; the rest of the snapshot
is unaffected (the step touches only its own accumulator entry). -/
theorem missing_key_processed_as_placeholder (wcw : Char → Int) (b : Bool)
    (acc : List String × RState) (c : Record) (h : c.CourseNo = none) :
    processRecord wcw b acc c =
      processRecord wcw b acc { c with CourseNo := some "-" } := by
  simp [processRecord, orDefault, h]

/-- Witness for `missing_key_processed_as_placeholder` at `recNoKey`. -/
theorem missing_key_processed_as_placeholder_witness :
    processRecord wcwSample false ([], emptyState) recNoKey =
      processRecord wcwSample false ([], emptyState)
        { recNoKey with CourseNo := some "-" } :=
  missing_key_processed_as_placeholder wcwSample false ([], emptyState) recNoKey rfl

/-- C4.  The sign marker is `"+"` exactly when both counts parsed and the
count increased, and `"-"` otherwise; the numeral color is red on a parsed
increase, green on a parsed decrease, yellow when either side is
null/unparseable; a null count renders as the dash placeholder. -/
theorem colored_line_sign_and_color (cv pv : Option Int) :
    (signStr cv pv = "+" ↔ ∃ c p, cv = some c ∧ pv = some p ∧ p < c) ∧
    (signStr cv pv = "+" ∨ signStr cv pv = "-") ∧
    (∀ c p, cv = some c → pv = some p → p < c → chooseColor cv pv = FORE_RED) ∧
    (∀ c p, cv = some c → pv = some p → c < p → chooseColor cv pv = FORE_GREEN) ∧
    ((cv = none ∨ pv = none) → chooseColor cv pv = FORE_YELLOW) ∧
    (cv = none → chooseStr cv = "-") := by
  rcases cv with _ | c <;> rcases pv with _ | p
  · exact ⟨iff_of_false (by decide) (by rintro ⟨c, p, hc, -, -⟩; exact Option.noConfusion hc),
      Or.inr rfl, fun c p hc => Option.noConfusion hc, fun c p hc => Option.noConfusion hc,
      fun _ => rfl, fun _ => rfl⟩
  · exact ⟨iff_of_false
        (by rw [show signStr none (some p) = "-" from rfl]; decide)
        (by rintro ⟨c, q, hc, -, -⟩; exact Option.noConfusion hc),
      Or.inr rfl, fun c q hc => Option.noConfusion hc, fun c q hc => Option.noConfusion hc,
      fun _ => rfl, fun _ => rfl⟩
  · exact ⟨iff_of_false
        (by rw [show signStr (some c) none = "-" from rfl]; decide)
        (by rintro ⟨c', q, -, hp, -⟩; exact Option.noConfusion hp),
      Or.inr rfl, fun c' q hc hp => Option.noConfusion hp,
      fun c' q hc hp => Option.noConfusion hp,
      fun h => by rcases h with h | h <;> exact rfl, fun h => Option.noConfusion h⟩
  · refine ⟨?_, ?_, ?_, ?_, ?_, fun h => Option.noConfusion h⟩
    · rcases lt_trichotomy p c with h | h | h
      · have hcc : chooseColor (some c) (some p) = FORE_RED := by
          simp [chooseColor, h]
        exact iff_of_true (by simp [signStr, hcc]) ⟨c, p, rfl, rfl, h⟩
      · have hcc : chooseColor (some c) (some p) = FORE_YELLOW := by
          simp [chooseColor, h]
        refine iff_of_false (by simp [signStr, hcc]; decide) ?_
        rintro ⟨c', p', hc', hp', hlt⟩
        obtain rfl : c = c' := by simpa using hc'
        obtain rfl : p = p' := by simpa using hp'
        exact absurd h (ne_of_lt hlt)
      · have hcc : chooseColor (some c) (some p) = FORE_GREEN := by
          simp [chooseColor, h, lt_asymm h]
        refine iff_of_false (by simp [signStr, hcc]; decide) ?_
        rintro ⟨c', p', hc', hp', hlt⟩
        obtain rfl : c = c' := by simpa using hc'
        obtain rfl : p = p' := by simpa using hp'
        exact absurd hlt (not_lt_of_gt h)
    · unfold signStr
      split
      · exact Or.inl rfl
      · exact Or.inr rfl
    · intro c' p' hc hp hlt
      obtain rfl : c' = c := by simpa using hc.symm
      obtain rfl : p' = p := by simpa using hp.symm
      simp [chooseColor, hlt]
    · intro c' p' hc hp hlt
      obtain rfl : c' = c := by simpa using hc.symm
      obtain rfl : p' = p := by simpa using hp.symm
      simp [chooseColor, hlt, lt_asymm hlt]
    · rintro (h | h) <;> exact Option.noConfusion h

/-- Witness for `colored_line_sign_and_color` at the spec's own examples:
current 5 over previous 3 selects the increase color (red), current 2 over
previous 7 selects the decrease color (green), and a null count renders as
the dash placeholder. -/
theorem colored_line_sign_and_color_witness :
    chooseColor (some 5) (some 3) = FORE_RED ∧
      chooseColor (some 2) (some 7) = FORE_GREEN ∧
      signStr (some 5) (some 3) = "+" ∧
      chooseStr none = "-" :=
  ⟨(colored_line_sign_and_color (some 5) (some 3)).2.2.1 5 3 rfl rfl (by norm_num),
    (colored_line_sign_and_color (some 2) (some 7)).2.2.2.1 2 7 rfl rfl (by norm_num),
    ((colored_line_sign_and_color (some 5) (some 3)).1).mpr ⟨5, 3, rfl, rfl, by norm_num⟩,
    (colored_line_sign_and_color none none).2.2.2.2.2 rfl⟩

/-- C8.  A non-interrupt exception in a cycle is contained: the loop
continues, sleeps the standard interval, prints nothing and leaves the
retained state and baseline flag untouched; an interrupt stops the loop
cleanly (and without the interval sleep); a successful fetch also continues
and sleeps. -/
theorem cycle_error_containment (wcw : Char → Int) (b : Bool) (st : RState) :
    ((runCycle wcw b st .exn).action = .cont ∧
      (runCycle wcw b st .exn).slept = true ∧
      (runCycle wcw b st .exn).printed = [] ∧
      (runCycle wcw b st .exn).state = st ∧
      (runCycle wcw b st .exn).first_run = b) ∧
    ((runCycle wcw b st .interrupt).action = .stop ∧
      (runCycle wcw b st .interrupt).slept = false ∧
      (runCycle wcw b st .interrupt).state = st) ∧
    (∀ data : List Record, (runCycle wcw b st (.ok data)).action = .cont ∧
      (runCycle wcw b st (.ok data)).slept = true) :=
  ⟨⟨rfl, rfl, rfl, rfl, rfl⟩, ⟨rfl, rfl, rfl⟩, fun _ => ⟨rfl, rfl⟩⟩

/-- C9.  `reset_scroll_region` is idempotent on the terminal state, is safe
from any state (in particular when `enable_sticky_title` never ran: it just
resets the scroll region to full screen), and always emits exactly the
full-screen scroll-region reset sequence. -/
theorem reset_scroll_region_idempotent :
    (∀ t : TermState,
      applyOps t (reset_scroll_region ++ reset_scroll_region) =
        applyOps t reset_scroll_region) ∧
    (∀ t : TermState,
      applyOps t reset_scroll_region = { t with scrollRegion := none }) ∧
    reset_scroll_region.map opBytes = ["\x1b[r"] :=
  ⟨fun _ => rfl, fun _ => rfl, rfl⟩

/-- C10 counterexample.  The Arabic-Indic digit five is not an ASCII decimal
digit, yet `parse_int_or_none` parses it to 5 (Python's `str.isdigit` and
`int()` accept all Unicode decimal digits), refuting "returns None for every
input other than ints and ASCII-digit strings". -/
theorem parse_int_or_none_unicode_cex :
    (¬ ∀ c ∈ "٥".data, c.isDigit) ∧ parse_int_or_none (.vstr "٥") = some 5 := by
  constructor
  · decide
  · decide

/-- C10 amended.  `parse_int_or_none` returns an int unchanged (negative
ints included), parses any string all of whose characters are decimal digits
in Python's Unicode sense (modelled fragment: ASCII and Arabic-Indic
digits), and returns None for everything else — in particular for `None`,
the empty string, and signed, decimal-point or otherwise non-digit
strings. -/
theorem parse_int_or_none_characterization :
    (∀ n : Int, parse_int_or_none (.vint n) = some n) ∧
    (∀ s : String, pyIsDigitStr s = true →
      parse_int_or_none (.vstr s) = some (pyIntOfDigits s)) ∧
    (∀ s : String, pyIsDigitStr s = false → parse_int_or_none (.vstr s) = none) ∧
    (parse_int_or_none .vnone = none) ∧
    (parse_int_or_none (.vstr "-5") = none) ∧
    (parse_int_or_none (.vstr "+3") = none) ∧
    (parse_int_or_none (.vstr "3.5") = none) ∧
    (parse_int_or_none (.vstr "") = none) ∧
    (parse_int_or_none (.vint (-7)) = some (-7)) := by
  refine ⟨fun n => rfl, fun s hs => ?_, fun s hs => ?_, rfl, ?_, ?_, ?_, ?_, rfl⟩
  · simp [parse_int_or_none, hs]
  · simp [parse_int_or_none, hs]
  all_goals decide

/-- Witness for `parse_int_or_none_characterization` at the ASCII digit
string `"42"`. -/
theorem parse_int_or_none_characterization_witness :
    parse_int_or_none (.vstr "42") = some (pyIntOfDigits "42") ∧
      pyIntOfDigits "42" = 42 :=
  ⟨parse_int_or_none_characterization.2.1 "42" (by decide), by decide⟩

/-- Witness for `pad_vis_visual_width_exact` at `s = "a好"`, `W = 4`. -/
theorem pad_vis_visual_width_exact_witness :
    (∀ c ∈ ['a', '好'], wcwSample c = 0 ∨ wcwSample c = 1 ∨ wcwSample c = 2) ∧
      wcwSample ' ' = 1 ∧
      wcswidthList wcwSample (pad_vis wcwSample ['a', '好'] 4) = 4 := by
  refine ⟨by decide, by decide, ?_⟩
  exact (pad_vis_visual_width_exact wcwSample ['a', '好'] 4 (by decide) (by decide)).1

lemma typeOutAux_nil : typeOutAux [] = [] := by
  rw [typeOutAux]
  split
  · rename_i m r h'
    simp [ansiMatch] at h'
  · rfl

lemma typeOutAux_esc (l m r : List Char) (h : ansiMatch l = some (m, r)) :
    typeOutAux l = .esc m :: typeOutAux r := by
  rw [typeOutAux]
  split
  · rename_i m' r' h'
    rw [h] at h'
    obtain ⟨rfl, rfl⟩ : m = m' ∧ r = r' := by simpa using h'
    rfl
  · rename_i h'
    rw [h] at h'
    cases h'

lemma typeOutAux_chr (c : Char) (rest : List Char)
    (h : ansiMatch (c :: rest) = none) :
    typeOutAux (c :: rest) = .chr c :: typeOutAux rest := by
  rw [typeOutAux]
  split
  · rename_i m' r' h'
    rw [h] at h'
    cases h'
  · rfl

lemma typeOutAux_flatMap_le : ∀ (n : Nat) (l : List Char), l.length ≤ n →
    (typeOutAux l).flatMap emitChars = l := by
  intro n
  induction n with
  | zero =>
    intro l hl
    obtain rfl : l = [] := List.length_eq_zero.1 (Nat.le_zero.1 hl)
    rw [typeOutAux_nil]
    rfl
  | succ n ih =>
    intro l hl
    cases hm : ansiMatch l with
    | some mr =>
      obtain ⟨m, r⟩ := mr
      obtain ⟨heq, hlen, -⟩ := ansiMatch_some l m r hm
      rw [typeOutAux_esc l m r hm]
      simp only [List.flatMap_cons, emitChars]
      rw [ih r (by omega)]
      exact heq
    | none =>
      cases l with
      | nil =>
        rw [typeOutAux_nil]
        rfl
      | cons c rest =>
        rw [typeOutAux_chr c rest hm]
        simp only [List.flatMap_cons, emitChars, List.singleton_append]
        rw [ih rest (by simpa using hl)]

lemma typeOutAux_flatMap (l : List Char) :
    (typeOutAux l).flatMap emitChars = l :=
  typeOutAux_flatMap_le l.length l le_rfl

lemma typeOutAux_units_le : ∀ (n : Nat) (l : List Char), l.length ≤ n →
    ∀ e ∈ typeOutAux l,
      (∃ s, e = .esc s ∧ IsAnsiSeq s ∧ emitDelayCount e = 0) ∨
      (∃ c, e = .chr c ∧ emitDelayCount e = 1) := by
  intro n
  induction n with
  | zero =>
    intro l hl
    obtain rfl : l = [] := List.length_eq_zero.1 (Nat.le_zero.1 hl)
    rw [typeOutAux_nil]
    intro e he
    cases he
  | succ n ih =>
    intro l hl
    cases hm : ansiMatch l with
    | some mr =>
      obtain ⟨m, r⟩ := mr
      obtain ⟨-, hlen, hshape⟩ := ansiMatch_some l m r hm
      rw [typeOutAux_esc l m r hm]
      intro e he
      rcases List.mem_cons.1 he with rfl | he
      · exact Or.inl ⟨m, rfl, hshape, rfl⟩
      · exact ih r (by omega) e he
    | none =>
      cases l with
      | nil =>
        rw [typeOutAux_nil]
        intro e he
        cases he
      | cons c rest =>
        rw [typeOutAux_chr c rest hm]
        intro e he
        rcases List.mem_cons.1 he with rfl | he
        · exact Or.inr ⟨c, rfl, rfl⟩
        · exact ih rest (by simpa using hl) e he

/-- C6.  `type_out` partitions its input into units — each one a complete
ANSI escape sequence (atomic, no typing delay) or a single character (one
typing delay) — whose concatenation is exactly the input line, and it emits
a final newline exactly when the line does not already end in one. -/
theorem type_out_units (l : List Char) :
    ((type_out l).flatMap emitChars =
      l ++ (if l.getLast? = some '\n' then [] else ['\n'])) ∧
    (∀ e ∈ typeOutAux l,
      (∃ s, e = .esc s ∧ IsAnsiSeq s ∧ emitDelayCount e = 0) ∨
      (∃ c, e = .chr c ∧ emitDelayCount e = 1)) ∧
    (type_out l = typeOutAux l ++ (if l.getLast? = some '\n' then [] else [Emit.nl])) := by
  refine ⟨?_, typeOutAux_units_le l.length l le_rfl, rfl⟩
  rw [type_out, List.flatMap_append, typeOutAux_flatMap]
  by_cases h : l.getLast? = some '\n'
  · simp [h]
  · simp [h, emitChars]

end Animate
